import Mathlib

/-!
# Verification of the rust-fil-proofs circuit KDF and PoSt challenge/circuit layer

This development shallowly embeds, at the value level, the key-derivation
gadget `kdf` of `storage-proofs/src/circuit/kdf.rs` together with the parts of
its environment it relies on (the SHA-256 circuit gadget, bit multipacking,
64-bit big-endian bit decomposition), and a spec-level model of the
Proof-of-Spacetime challenge generation and circuit satisfaction used by the
`storage-proofs-post` halo2 tests.

Circuit wires carrying an optional assigned bit are modelled as `Option Bool`;
field elements are modelled as natural numbers reduced modulo the field order,
which is passed as a parameter `r` (the repacking below only ever produces
values below `2 ^ cap` where `cap` is the field capacity parameter).
-/

/-! ## Bits and bytes -/

/-- The big-endian bit decomposition of the low `w` bits of `n`
(most significant bit first). -/
def natToBitsBE (w n : Nat) : List Bool :=
  (List.range w).map (fun i => n.testBit (w - 1 - i))

/-- A byte string as bits, each byte most-significant-bit first, bytes in
order.  This is the bit layout `bytes_into_boolean_vec_be` produces and the
layout in which the SHA-256 circuit gadget consumes and emits bits. -/
def bytesToBitsBE (bytes : List Nat) : List Bool :=
  (bytes.map (natToBitsBE 8)).flatten

/-- The value of a bit list read little-endian-first (head is bit 0). -/
def bitsToNatLE (bits : List Bool) : Nat :=
  bits.foldr (fun b acc => 2 * acc + (if b then 1 else 0)) 0

/-- The value of a bit list read big-endian-first (head is the top bit). -/
def bitsToNatBE (bits : List Bool) : Nat :=
  bits.foldl (fun acc b => 2 * acc + (if b then 1 else 0)) 0

/-- Split a list into consecutive chunks of `n` elements; the final chunk is
shorter when `n` does not divide the length (the behaviour of Rust's
`slice::chunks`). -/
def chunksOf (n : Nat) (l : List α) : List (List α) :=
  if n = 0 then []
  else (List.range ((l.length + n - 1) / n)).map (fun i => (l.drop (n * i)).take n)

/-! ## SHA-256 over bit strings

The circuit gadget `fil_sapling_crypto::circuit::sha256::sha256` computes
standard SHA-256 (FIPS 180-4) of its input bit string, including padding; its
input and output bits are in big-endian order within each byte.  The plain
SHA-256 used by the non-circuit KDF is the same function on the byte string's
big-endian bits. -/

/-- Rotate a 32-bit word right by `n` (inputs below `2 ^ 32`). -/
def rotr32 (n x : Nat) : Nat :=
  (x >>> n) + ((x % 2 ^ n) <<< (32 - n))

/-- Bitwise complement within 32 bits. -/
def not32 (x : Nat) : Nat := x ^^^ (2 ^ 32 - 1)

def shaCh (x y z : Nat) : Nat := (x &&& y) ^^^ (not32 x &&& z)

def shaMaj (x y z : Nat) : Nat := (x &&& y) ^^^ (x &&& z) ^^^ (y &&& z)

def bigSigma0 (x : Nat) : Nat := rotr32 2 x ^^^ rotr32 13 x ^^^ rotr32 22 x

def bigSigma1 (x : Nat) : Nat := rotr32 6 x ^^^ rotr32 11 x ^^^ rotr32 25 x

def smallSigma0 (x : Nat) : Nat := rotr32 7 x ^^^ rotr32 18 x ^^^ (x >>> 3)

def smallSigma1 (x : Nat) : Nat := rotr32 17 x ^^^ rotr32 19 x ^^^ (x >>> 10)

/-- The SHA-256 round constants. -/
def shaK : List Nat :=
  [1116352408, 1899447441, 3049323471, 3921009573, 961987163, 1508970993,
   2453635748, 2870763221, 3624381080, 310598401, 607225278, 1426881987,
   1925078388, 2162078206, 2614888103, 3248222580, 3835390401, 4022224774,
   264347078, 604807628, 770255983, 1249150122, 1555081692, 1996064986,
   2554220882, 2821834349, 2952996808, 3210313671, 3336571891, 3584528711,
   113926993, 338241895, 666307205, 773529912, 1294757372, 1396182291,
   1695183700, 1986661051, 2177026350, 2456956037, 2730485921, 2820302411,
   3259730800, 3345764771, 3516065817, 3600352804, 4094571909, 275423344,
   430227734, 506948616, 659060556, 883997877, 958139571, 1322822218,
   1537002063, 1747873779, 1955562222, 2024104815, 2227730452, 2361852424,
   2428436474, 2756734187, 3204031479, 3329325298]

/-- The SHA-256 initial hash value. -/
def shaH0 : List Nat :=
  [1779033703, 3144134277, 1013904242, 2773480762,
   1359893119, 2600822924, 528734635, 1541459225]

/-- Extend the 16 block words to the 64-word message schedule. -/
def shaSchedule (ws : List Nat) : List Nat :=
  (List.range 48).foldl
    (fun w t =>
      w ++ [(smallSigma1 (w.getD (t + 14) 0) + w.getD (t + 9) 0 +
             smallSigma0 (w.getD (t + 1) 0) + w.getD t 0) % 2 ^ 32])
    ws

/-- One SHA-256 compression round. -/
def shaRound (st : List Nat) (kw : Nat × Nat) : List Nat :=
  let a := st.getD 0 0
  let b := st.getD 1 0
  let c := st.getD 2 0
  let d := st.getD 3 0
  let e := st.getD 4 0
  let f := st.getD 5 0
  let g := st.getD 6 0
  let h := st.getD 7 0
  let t1 := (h + bigSigma1 e + shaCh e f g + kw.1 + kw.2) % 2 ^ 32
  let t2 := (bigSigma0 a + shaMaj a b c) % 2 ^ 32
  [(t1 + t2) % 2 ^ 32, a, b, c, (d + t1) % 2 ^ 32, e, f, g]

/-- Compress one 16-word block into the 8-word SHA-256 state. -/
def shaCompress (hs ws : List Nat) : List Nat :=
  let w := shaSchedule ws
  let st := (shaK.zip w).foldl shaRound hs
  [(hs.getD 0 0 + st.getD 0 0) % 2 ^ 32, (hs.getD 1 0 + st.getD 1 0) % 2 ^ 32,
   (hs.getD 2 0 + st.getD 2 0) % 2 ^ 32, (hs.getD 3 0 + st.getD 3 0) % 2 ^ 32,
   (hs.getD 4 0 + st.getD 4 0) % 2 ^ 32, (hs.getD 5 0 + st.getD 5 0) % 2 ^ 32,
   (hs.getD 6 0 + st.getD 6 0) % 2 ^ 32, (hs.getD 7 0 + st.getD 7 0) % 2 ^ 32]

/-- Full SHA-256 of a bit string (any length): pad, split into 512-bit blocks,
fold the compression function, emit the 256 digest bits big-endian within
each 32-bit word. -/
def sha256Bits (msg : List Bool) : List Bool :=
  let len := msg.length
  let zeros := (448 + 512 - (len + 1) % 512) % 512
  let padded := msg ++ [true] ++ List.replicate zeros false ++ natToBitsBE 64 len
  let blocks := chunksOf 512 padded
  let final := blocks.foldl (fun hs b => shaCompress hs ((chunksOf 32 b).map bitsToNatBE)) shaH0
  (final.map (natToBitsBE 32)).flatten

/-! ## The circuit KDF of `storage-proofs/src/circuit/kdf.rs`

A circuit `Boolean` wire is modelled by its assigned value, an `Option Bool`
(`None` when the wire carries no assignment, as in setup-only construction).
The constraint-system modes the repository exercises (`TestConstraintSystem`)
evaluate the allocation closure, so `AllocatedNum::alloc` with a failing
closure surfaces the closure's error; an out-of-bounds index or a failing
`unwrap` is a Rust panic, modelled as a distinct outcome. -/

/-- The error the `kdf` gadget can return (`SynthesisError::AssignmentMissing`). -/
inductive SynthErr
  | assignmentMissing
deriving DecidableEq, Repr

/-- The observable outcome of running `kdf`: a returned field-element value, a
returned synthesis error, or a Rust panic. -/
inductive KdfOutcome
  | ok (v : Nat)
  | err (e : SynthErr)
  | panic
deriving DecidableEq, Repr

/-- Modelled from the spec: `uint64::UInt64::to_bits_be` (the `uint64` module
is not under `src/`); per the spec it is the big-endian bit representation of
the 64-bit node index. -/
def to_bits_be (n : Nat) : List Bool :=
  natToBitsBE 64 n

/-- Modelled from the spec: the external `multipack::compute_multipacking`
gadget packs a little-endian-first bit sequence (at most `cap` bits used by
`kdf`) into a field element of the field of order `r`: the value
`Σ bits[i] * 2 ^ i` reduced mod `r`. -/
def compute_multipacking (r : Nat) (bits : List Bool) : Nat :=
  bitsToNatLE bits % r

/-- The value semantics of the external SHA-256 circuit gadget
(`fil_sapling_crypto::circuit::sha256::sha256`): when every input wire
carries an assigned value, the 256 output wires carry the SHA-256 digest
bits; when an input value is missing (setup-only construction) the output
wires carry no values. -/
def sha256CircuitVals (input : List (Option Bool)) : List (Option Bool) :=
  if input.all (·.isSome) then (sha256Bits (input.map (·.getD false))).map some
  else List.replicate 256 none

/-- The pre-image bit vector `ciphertexts` built by `kdf`
(`kdf.rs` lines 25–33): start from `id`, extend with the node's big-endian
bits when a node is supplied, then extend with each parent in order. -/
def kdfInput (id : List (Option Bool)) (node : Option (List (Option Bool)))
    (parents : List (List (Option Bool))) : List (Option Bool) :=
  let ciphertexts := id
  let ciphertexts :=
    match node with
    | some nodeBits => ciphertexts ++ nodeBits
    | none => ciphertexts
  parents.foldl (fun acc parent => acc ++ parent) ciphertexts

/-- The tail of `kdf` (`kdf.rs` lines 37–55): inspect `alloc_bits[0]`; when it
has a value, unwrap every output bit (a missing later value is a panic),
reverse the bit order within each 8-bit chunk, truncate to the field capacity
`cap`, and multipack; when `alloc_bits[0]` has no value, return
`SynthesisError::AssignmentMissing` from the result allocation. -/
def kdfFromDigest (cap r : Nat) (allocBits : List (Option Bool)) : KdfOutcome :=
  match allocBits with
  | [] => .panic
  | b0 :: _ =>
    if b0.isSome then
      if allocBits.all (·.isSome) then
        let beBits := allocBits.map (·.getD false)
        let leBits := (((chunksOf 8 beBits).map List.reverse).flatten).take cap
        .ok (compute_multipacking r leBits)
      else .panic
    else .err .assignmentMissing

/-- The circuit KDF (`kdf.rs`, `kdf`): concatenate the pre-image, hash it with
the SHA-256 circuit gadget `shaC`, and repack the digest values into the
allocated result number. -/
def kdf (cap r : Nat) (shaC : List (Option Bool) → List (Option Bool))
    (id : List (Option Bool)) (parents : List (List (Option Bool)))
    (node : Option (List (Option Bool))) : KdfOutcome :=
  kdfFromDigest cap r (shaC (kdfInput id node parents))

/-- Modelled from the spec: the plain (non-circuit) KDF `crypto::kdf::kdf`,
whose code is not under `src/`.  Per the spec it hashes the byte string with
the fixed-output hash (SHA-256) and repacks the hash output bits
(little-endian: 8-bit byte groups reversed within each byte, truncated to the
field's safe bit capacity `cap`) into a field element of the field of
order `r`. -/
def plain_kdf (cap r : Nat) (data : List Nat) : Nat :=
  compute_multipacking r
    ((((chunksOf 8 (sha256Bits (bytesToBitsBE data))).map List.reverse).flatten).take cap)

/-- The big-endian byte representation of a 64-bit integer
(`u64::to_be_bytes`). -/
def u64ToBytesBE (n : Nat) : List Nat :=
  (List.range 8).map (fun i => (n >>> ((7 - i) * 8)) % 256)

/-- The order of the BLS12-381 scalar field `Fr`, the field the repository's
tests instantiate `E::Fr` with; its capacity is 254 bits. -/
def bls12381r : Nat :=
  52435875175126190479447740508185965837690552500527637822603658699938581184513

/-! ## Modelled from the spec: PoSt challenge generation (§4.1)

`winning::generate_challenges` and `window::generate_challenges` of
`storage-proofs-post` are repository code that is not under `src/` (only
their caller, the halo2 circuit test, is), so they are modelled from the
spec: each challenge index is derived by hashing a domain-separated
concatenation of the randomness, the sector identifier, the partition index
(for Window proofs additionally the per-sector index), and a per-challenge
counter, then reducing the hash modulo the number of leaves of the target
sector size.  The hash and the fixed challenge count are parameters. -/

namespace winning

/-- Modelled from the spec: `winning::generate_challenges`. -/
def generate_challenges (hash : List Nat → Nat) (numLeaves count : Nat)
    (randomness sector_id partition_k : Nat) : List Nat :=
  (List.range count).map
    (fun i => hash [randomness, sector_id, partition_k, i] % numLeaves)

end winning

namespace window

/-- Modelled from the spec: `window::generate_challenges`, which additionally
mixes in the sector index within the partition. -/
def generate_challenges (hash : List Nat → Nat) (numLeaves count : Nat)
    (randomness sector_index sector_id partition_k : Nat) : List Nat :=
  (List.range count).map
    (fun i => hash [randomness, sector_index, sector_id, partition_k, i] % numLeaves)

end window

/-! ## Modelled from the spec: Merkle path verification and PoSt circuit
satisfaction (§3, §4.2, §4.5, §4.6)

The halo2 PoSt circuits themselves are not under `src/`, so their constraint
semantics is modelled from the spec's invariant: the constraint system is
satisfied exactly when, for every challenge, the witnessed leaf and
authentication path hash level by level (using the declared arities) to the
witnessed `root_r`, and the public `comm_r` equals the domain-separated
two-input hash of `comm_c` and `root_r`.  Field elements are abstract
(`F`); the two-input commitment hash `hash2` and the arity-ary tree
compression `hashMany` are parameters. -/

/-- One tree level: parent `i` hashes children `a * i .. a * i + a - 1`. -/
def buildLevel (hashMany : List F → F) (a : Nat) (f : Nat → F) : Nat → F :=
  fun i => hashMany ((List.range a).map (fun j => f (a * i + j)))

/-- Modelled from the spec: the root of the tree over the leaves `f` with the
per-level arities `arities` (the leaf count is the product of the arities;
absent levels are simply not listed). -/
def rootOf (hashMany : List F → F) : List Nat → (Nat → F) → F
  | [], f => f 0
  | a :: arities, f => rootOf hashMany arities (buildLevel hashMany a f)

/-- The siblings accompanying index `c` at a level of arity `a`: the other
members of its group, in their level order. -/
def siblingsAt (a : Nat) (f : Nat → F) (c : Nat) : List F :=
  ((List.range a).filter (fun j => j ≠ c % a)).map (fun j => f (a * (c / a) + j))

/-- Modelled from the spec: `gen_proof` — the authentication path of leaf
`c`: per level, the sibling set and the position of the child within its
group. -/
def gen_proof (hashMany : List F → F) : List Nat → (Nat → F) → Nat → List (List F × Nat)
  | [], _, _ => []
  | a :: arities, f, c =>
    (siblingsAt a f c, c % a) ::
      gen_proof hashMany arities (buildLevel hashMany a f) (c / a)

/-- Insert `x` at position `pos` of `l`. -/
def insertAt (pos : Nat) (x : F) (l : List F) : List F :=
  l.take pos ++ x :: l.drop pos

/-- Modelled from the spec (§4.2): in-circuit Merkle path verification —
iteratively hash the current value into its sibling group at the recorded
position, level by level, producing the claimed root. -/
def verifyPath (hashMany : List F → F) (path : List (List F × Nat)) (cur : F) : F :=
  path.foldl (fun cur level => hashMany (insertAt level.2 cur level.1)) cur

/-- Modelled from the spec (§3, §4.5): the Winning PoSt constraint system is
satisfied exactly when the public `comm_r` equals `hash2 comm_c root_r` and
every challenge's witnessed leaf and path hash up to `root_r`. -/
def winningSatisfied (hash2 : F → F → F) (hashMany : List F → F)
    (comm_r comm_c root_r : F) (witnesses : List (F × List (List F × Nat))) : Prop :=
  comm_r = hash2 comm_c root_r ∧
    ∀ w ∈ witnesses, verifyPath hashMany w.2 w.1 = root_r

/-- Modelled from the spec (§4.6): the Window PoSt circuit repeats the
Winning-style verification independently for each sector, in order; a sector
entry is `(comm_r, comm_c, root_r, witnesses)`. -/
def windowSatisfied (hash2 : F → F → F) (hashMany : List F → F)
    (sectors : List (F × F × F × List (F × List (List F × Nat)))) : Prop :=
  ∀ s ∈ sectors, winningSatisfied hash2 hashMany s.1 s.2.1 s.2.2.1 s.2.2.2

/-! ## Supporting lemmas -/

theorem foldl_append_flatten (ps : List (List α)) (c : List α) :
    ps.foldl (fun acc p => acc ++ p) c = c ++ ps.flatten := by
  induction ps generalizing c with
  | nil => simp
  | cons p ps ih => simp [List.foldl_cons, ih]

theorem bytesToBitsBE_append (a b : List Nat) :
    bytesToBitsBE (a ++ b) = bytesToBitsBE a ++ bytesToBitsBE b := by
  simp [bytesToBitsBE]

theorem bytesToBitsBE_flatten (L : List (List Nat)) :
    bytesToBitsBE L.flatten = (L.map bytesToBitsBE).flatten := by
  induction L with
  | nil => rfl
  | cons x L ih => simp [bytesToBitsBE_append, ih]

theorem map_some_all_isSome (l : List Bool) :
    (l.map some).all (·.isSome) = true := by
  induction l with
  | nil => rfl
  | cons a t ih => simp [List.all_cons, ih]

theorem map_some_getD (l : List Bool) :
    (l.map some).map (·.getD false) = l := by
  simp [List.map_map]
  exact List.map_id l

theorem natToBitsBE_add (v w n : Nat) :
    natToBitsBE (v + w) n = natToBitsBE v (n >>> w) ++ natToBitsBE w n := by
  unfold natToBitsBE
  rw [List.range_add, List.map_append, List.map_map]
  congr 1
  · apply List.map_congr_left
    intro i hi
    rw [List.mem_range] at hi
    rw [Nat.testBit_shiftRight]
    congr 1
    omega
  · apply List.map_congr_left
    intro i hi
    rw [List.mem_range] at hi
    simp only [Function.comp_apply]
    congr 1
    omega

theorem natToBitsBE_mod (w k n : Nat) (h : w ≤ k) :
    natToBitsBE w (n % 2 ^ k) = natToBitsBE w n := by
  unfold natToBitsBE
  apply List.map_congr_left
  intro i hi
  rw [List.mem_range] at hi
  rw [Nat.testBit_mod_two_pow]
  have : w - 1 - i < k := by omega
  simp [this]

theorem natToBitsBE_mul8 (k n : Nat) :
    natToBitsBE (8 * k) n
      = bytesToBitsBE ((List.range k).map (fun i => (n >>> ((k - 1 - i) * 8)) % 256)) := by
  induction k generalizing n with
  | zero => rfl
  | succ k ih =>
    have h8 : 8 * (k + 1) = 8 + 8 * k := by ring
    rw [h8, natToBitsBE_add, List.range_succ_eq_map, List.map_cons, List.map_map]
    show _ = bytesToBitsBE (((n >>> ((k - 0) * 8)) % 256) :: _)
    rw [show bytesToBitsBE (((n >>> ((k - 0) * 8)) % 256) :: _) =
          natToBitsBE 8 ((n >>> ((k - 0) * 8)) % 256) ++
            bytesToBitsBE ((List.range k).map ((fun i => (n >>> ((k + 1 - 1 - i) * 8)) % 256) ∘ Nat.succ)) from by
      simp [bytesToBitsBE]]
    congr 1
    · rw [show (256 : Nat) = 2 ^ 8 from rfl, natToBitsBE_mod 8 8 _ le_rfl,
        show (k - 0) * 8 = 8 * k from by omega]
    · rw [ih]
      congr 1
      apply List.map_congr_left
      intro i hi
      rw [List.mem_range] at hi
      simp only [Function.comp]
      congr 2
      omega

theorem u64ToBytesBE_bits (n : Nat) :
    bytesToBitsBE (u64ToBytesBE n) = to_bits_be n := by
  rw [to_bits_be, show (64 : Nat) = 8 * 8 from rfl, natToBitsBE_mul8]
  rfl

theorem shaCompress_length (hs ws : List Nat) : (shaCompress hs ws).length = 8 := rfl

theorem foldl_shaCompress_length (blocks : List (List Bool)) (hs : List Nat)
    (h : hs.length = 8) :
    (blocks.foldl (fun hs b => shaCompress hs ((chunksOf 32 b).map bitsToNatBE)) hs).length
      = 8 := by
  induction blocks generalizing hs with
  | nil => exact h
  | cons b blocks ih => exact ih _ (shaCompress_length _ _)

theorem flatten_map_natToBitsBE_length (w : Nat) (L : List Nat) :
    ((L.map (natToBitsBE w)).flatten).length = w * L.length := by
  induction L with
  | nil => simp
  | cons x L ih =>
    simp only [List.map_cons, List.flatten_cons, List.length_append, ih, natToBitsBE,
      List.length_map, List.length_range, List.length_cons]
    ring

theorem sha256Bits_length (m : List Bool) : (sha256Bits m).length = 256 := by
  rw [sha256Bits, flatten_map_natToBitsBE_length,
    foldl_shaCompress_length _ shaH0 (by rfl)]

theorem sha256Bits_ne_nil (m : List Bool) : sha256Bits m ≠ [] := by
  intro h
  have := sha256Bits_length m
  rw [h] at this
  simp at this

theorem kdfInput_none (id : List (Option Bool)) (parents : List (List (Option Bool))) :
    kdfInput id none parents = id ++ parents.flatten := by
  simp [kdfInput, foldl_append_flatten]

theorem kdfInput_some (id nb : List (Option Bool)) (parents : List (List (Option Bool))) :
    kdfInput id (some nb) parents = id ++ nb ++ parents.flatten := by
  simp [kdfInput, foldl_append_flatten]

theorem sha256CircuitVals_map_some (l : List Bool) :
    sha256CircuitVals (l.map some) = (sha256Bits l).map some := by
  rw [sha256CircuitVals, if_pos (map_some_all_isSome l), map_some_getD]

theorem kdfFromDigest_map_some (cap r : Nat) (digest : List Bool) (h : digest ≠ []) :
    kdfFromDigest cap r (digest.map some)
      = .ok (compute_multipacking r
          ((((chunksOf 8 digest).map List.reverse).flatten).take cap)) := by
  cases digest with
  | nil => exact absurd rfl h
  | cons d rest =>
    simp only [List.map_cons, kdfFromDigest, Option.isSome_some, if_true]
    simp only [Option.getD_some, map_some_getD]
    rw [if_pos (show ((some d :: List.map some rest).all fun x => x.isSome) = true from
      map_some_all_isSome (d :: rest))]

theorem getD_drop (l : List α) (n j : Nat) (d : α) :
    (l.drop n).getD j d = l.getD (n + j) d := by
  rw [List.getD_eq_getElem?_getD, List.getD_eq_getElem?_getD, List.getElem?_drop]

theorem take_reverse_eq_map_range (n : Nat) (l : List Bool) (h : n ≤ l.length) :
    (l.take n).reverse = (List.range n).map (fun i => l.getD (n - 1 - i) false) := by
  have hn : (l.take n).length = n := by
    rw [List.length_take]
    omega
  apply List.ext_getElem
  · simp [hn]
  · intro i h1 h2
    have hi : i < n := by
      rw [List.length_reverse, hn] at h1
      exact h1
    rw [List.getElem_map, List.getElem_range, List.getElem_reverse,
      List.getD_eq_getElem _ _ (show n - 1 - i < l.length by omega),
      List.getElem_take]
    congr 1
    omega

theorem chunksOf_nil (n : Nat) : chunksOf n ([] : List α) = [] := by
  unfold chunksOf
  cases n with
  | zero => simp
  | succ m => simp [Nat.div_eq_of_lt (Nat.lt_succ_self m)]

theorem chunksOf8_cons (l : List Bool) (h : l.length ≠ 0) :
    chunksOf 8 l = l.take 8 :: chunksOf 8 (l.drop 8) := by
  unfold chunksOf
  rw [if_neg (by omega), if_neg (by omega)]
  have hc : (l.length + 8 - 1) / 8 = ((l.drop 8).length + 8 - 1) / 8 + 1 := by
    rw [List.length_drop]
    omega
  rw [hc, List.range_succ_eq_map, List.map_cons, List.map_map]
  congr 1
  apply List.map_congr_left
  intro i hi
  simp only [Function.comp_apply, List.drop_drop]
  congr 2
  omega

theorem chunks8_reverse_flatten (k : Nat) (l : List Bool) (h : l.length = 8 * k) :
    ((chunksOf 8 l).map List.reverse).flatten
      = (List.range (8 * k)).map (fun i => l.getD (8 * (i / 8) + (7 - i % 8)) false) := by
  induction k generalizing l with
  | zero =>
    have : l = [] := List.eq_nil_of_length_eq_zero (by omega)
    subst this
    rfl
  | succ k ih =>
    obtain ⟨a, t, rfl⟩ : ∃ a t, l = a :: t := by
      cases l with
      | nil => simp at h
      | cons a t => exact ⟨a, t, rfl⟩
    rw [chunksOf8_cons (a :: t) (by simp), List.map_cons, List.flatten_cons]
    have hlen : (8 : Nat) ≤ (a :: t).length := by
      rw [h]
      omega
    have hdrop : ((a :: t).drop 8).length = 8 * k := by
      rw [List.length_drop, h]
      omega
    rw [ih _ hdrop, show 8 * (k + 1) = 8 + 8 * k from by ring, List.range_add,
      List.map_append]
    congr 1
    · rw [take_reverse_eq_map_range 8 _ hlen]
      apply List.map_congr_left
      intro i hi
      rw [List.mem_range] at hi
      congr 1
      omega
    · rw [List.map_map]
      apply List.map_congr_left
      intro i hi
      rw [List.mem_range] at hi
      simp only [Function.comp_apply]
      rw [getD_drop]
      congr 1
      omega

theorem flatten_map_map_some (L : List (List Nat)) :
    (L.map (fun p => (bytesToBitsBE p).map some)).flatten
      = (bytesToBitsBE L.flatten).map some := by
  induction L with
  | nil => simp [bytesToBitsBE]
  | cons x L ih => simp [bytesToBitsBE_append, ih]


/-! ## Claims C1, C2, C3, C7, C8, C9 -/

/-- Claim C1: for every id byte string, every list of parent byte strings
(including the empty list), and both an absent and a present node index, the
field element returned by the in-circuit `kdf` equals the plain (non-circuit)
KDF applied to the same bytes: the id, then the node index big-endian when
present, then the parents in order. -/
theorem kdf_circuit_matches_plain (cap r : Nat) (idBytes : List Nat)
    (parentBytes : List (List Nat)) (node : Option Nat) :
    kdf cap r sha256CircuitVals ((bytesToBitsBE idBytes).map some)
      (parentBytes.map (fun p => (bytesToBitsBE p).map some))
      (node.map (fun n => (to_bits_be n).map some))
    = .ok (plain_kdf cap r
        (idBytes ++ (match node with | some n => u64ToBytesBE n | none => [])
          ++ parentBytes.flatten)) := by
  cases node with
  | none =>
    rw [kdf, Option.map_none', kdfInput_none, flatten_map_map_some, ← List.map_append,
      ← bytesToBitsBE_append, sha256CircuitVals_map_some,
      kdfFromDigest_map_some _ _ _ (sha256Bits_ne_nil _), plain_kdf]
    simp
  | some n =>
    rw [kdf, Option.map_some', kdfInput_some, flatten_map_map_some, ← u64ToBytesBE_bits,
      ← List.map_append, ← List.map_append, ← bytesToBitsBE_append, ← bytesToBitsBE_append,
      sha256CircuitVals_map_some, kdfFromDigest_map_some _ _ _ (sha256Bits_ne_nil _),
      plain_kdf]

/-- Claim C2: the pre-image hashed in-circuit by `kdf` is exactly the id bits,
then (only when a node index is supplied) the 64 big-endian bits of the node
index, then the bits of each parent in the order supplied, with nothing else
appended or reordered. -/
theorem kdf_preimage_exact (cap r : Nat)
    (shaC : List (Option Bool) → List (Option Bool))
    (id : List (Option Bool)) (parents : List (List (Option Bool))) (n : Nat) :
    kdf cap r shaC id parents (some ((to_bits_be n).map some))
        = kdfFromDigest cap r (shaC (id ++ (to_bits_be n).map some ++ parents.flatten))
      ∧ kdf cap r shaC id parents none
        = kdfFromDigest cap r (shaC (id ++ parents.flatten)) := by
  constructor
  · rw [kdf, kdfInput_some]
  · rw [kdf, kdfInput_none]

/-- Claim C3: when the hash output bits carry assigned values, `kdf` repacks
the 256 digest bits into one field element by reversing the bit order within
each 8-bit group (groups kept in order), truncating to the field's safe bit
capacity `cap`, and multipacking the bits little-endian-first. -/
theorem kdf_repacking (cap r : Nat) (hcap : cap ≤ 256)
    (shaC : List (Option Bool) → List (Option Bool))
    (id : List (Option Bool)) (parents : List (List (Option Bool)))
    (node : Option (List (Option Bool))) (digest : List Bool)
    (hlen : digest.length = 256)
    (hsha : shaC (kdfInput id node parents) = digest.map some) :
    kdf cap r shaC id parents node
      = .ok (compute_multipacking r
          ((List.range cap).map (fun i => digest.getD (8 * (i / 8) + (7 - i % 8)) false))) := by
  rw [kdf, hsha,
    kdfFromDigest_map_some _ _ _ (by intro hd; rw [hd] at hlen; simp at hlen)]
  congr 1
  rw [chunks8_reverse_flatten 32 digest (by rw [hlen]), ← List.map_take, List.take_range,
    Nat.min_eq_left hcap]

set_option maxRecDepth 100000 in
theorem kdf_repacking_witness :
    17 ≤ 256 ∧ (List.replicate 256 false).length = 256 ∧
      kdf 17 97 (fun _ => (List.replicate 256 false).map some) [] [] none
        = .ok (compute_multipacking 97
            ((List.range 17).map
              (fun i => (List.replicate 256 false).getD (8 * (i / 8) + (7 - i % 8)) false))) :=
  ⟨by decide, by decide,
    kdf_repacking 17 97 (by decide) (fun _ => (List.replicate 256 false).map some)
      [] [] none (List.replicate 256 false) (by decide) rfl⟩

/-- Claim C7: run with the SHA-256 circuit gadget in a setup-only constraint
system — some pre-image wire (hence every hash output wire) carries no
assigned value — `kdf` returns `SynthesisError::AssignmentMissing` for the
allocated result instead of a field element. -/
theorem kdf_setup_missing (cap r : Nat)
    (id : List (Option Bool)) (parents : List (List (Option Bool)))
    (node : Option (List (Option Bool)))
    (h : (kdfInput id node parents).all (·.isSome) = false) :
    kdf cap r sha256CircuitVals id parents node = .err .assignmentMissing := by
  rw [kdf, sha256CircuitVals, h]
  rfl

theorem kdf_setup_missing_witness :
    kdf 254 97 sha256CircuitVals [none] [] none = .err .assignmentMissing :=
  kdf_setup_missing 254 97 [none] [] none (by decide)

/-- Claim C9: the missing-witness check of `kdf` inspects only the first
sha256 output bit: the gadget returns `AssignmentMissing` exactly when bit 0
carries no value, and when bit 0 carries a value it unconditionally unwraps
every remaining output bit, panicking (not erroring) if any later bit carries
no value. -/
theorem kdf_checks_only_first_digest_bit (cap r : Nat)
    (id : List (Option Bool)) (parents : List (List (Option Bool)))
    (node : Option (List (Option Bool))) (b : Option Bool) (rest : List (Option Bool)) :
    (kdf cap r (fun _ => b :: rest) id parents node = .err .assignmentMissing ↔ b = none)
      ∧ (∀ v, b = some v → rest.all (·.isSome) = false →
          kdf cap r (fun _ => b :: rest) id parents node = .panic) := by
  constructor
  · cases b with
    | none => simp [kdf, kdfFromDigest]
    | some v =>
      rw [kdf]
      simp only [kdfFromDigest, Option.isSome_some, if_true]
      cases hall : (some v :: rest).all (·.isSome) <;> simp [hall]
  · rintro v rfl hall
    rw [kdf]
    simp only [kdfFromDigest, Option.isSome_some, if_true, List.all_cons, hall,
      Bool.and_false, if_false]
    rfl

theorem kdf_checks_only_first_digest_bit_witness :
    kdf 254 97 (fun _ => some true :: [none]) [] [] none = .panic :=
  (kdf_checks_only_first_digest_bit 254 97 [] [] none (some true) [none]).2 true rfl
    (by decide)

set_option maxRecDepth 1000000 in
/-- Claim C8: calling `kdf` with no node and with node zero produces different
hash pre-images (the zero-node call inserts 64 zero bits between the id and
the parents), and for a concrete id (32 zero bytes) with no parents the two
calls return different field elements. -/
theorem kdf_node_none_ne_node_zero :
    (∀ (id : List (Option Bool)) (parents : List (List (Option Bool))),
        kdfInput id (some ((to_bits_be 0).map some)) parents ≠ kdfInput id none parents)
      ∧ kdf 254 bls12381r sha256CircuitVals ((bytesToBitsBE (List.replicate 32 0)).map some)
          [] (some ((to_bits_be 0).map some))
        ≠ kdf 254 bls12381r sha256CircuitVals ((bytesToBitsBE (List.replicate 32 0)).map some)
          [] none := by
  constructor
  · intro id parents hEq
    have hLen := congrArg List.length hEq
    rw [kdfInput_some, kdfInput_none] at hLen
    have h64 : ((to_bits_be 0).map some).length = 64 := by
      rw [List.length_map, to_bits_be, natToBitsBE, List.length_map, List.length_range]
    simp only [List.length_append, h64] at hLen
    omega
  · decide


/-- Claim C4: every challenge index produced by `generate_challenges` (both
the Winning and the Window variant) satisfies `0 ≤ c < numLeaves`, so the
32-byte replica slice at byte offset `c * 32` lies within the replica of
`numLeaves * 32` bytes. -/
theorem generate_challenges_in_range (hash : List Nat → Nat)
    (numLeaves count randomness sector_index sector_id partition_k : Nat)
    (hpos : 0 < numLeaves) :
    (∀ c ∈ winning.generate_challenges hash numLeaves count randomness sector_id partition_k,
        c < numLeaves ∧ c * 32 + 32 ≤ numLeaves * 32)
      ∧ (∀ c ∈ window.generate_challenges hash numLeaves count randomness sector_index
            sector_id partition_k,
        c < numLeaves ∧ c * 32 + 32 ≤ numLeaves * 32) := by
  constructor
  · intro c hc
    rw [winning.generate_challenges, List.mem_map] at hc
    obtain ⟨i, _, rfl⟩ := hc
    have := Nat.mod_lt (hash [randomness, sector_id, partition_k, i]) hpos
    omega
  · intro c hc
    rw [window.generate_challenges, List.mem_map] at hc
    obtain ⟨i, _, rfl⟩ := hc
    have := Nat.mod_lt (hash [randomness, sector_index, sector_id, partition_k, i]) hpos
    omega

theorem generate_challenges_in_range_witness :
    0 < 64 ∧
      (∀ c ∈ winning.generate_challenges (fun l => l.sum + 1000) 64 2 5 6 7,
          c < 64 ∧ c * 32 + 32 ≤ 64 * 32)
        ∧ (∀ c ∈ window.generate_challenges (fun l => l.sum + 1000) 64 2 5 3 6 7,
          c < 64 ∧ c * 32 + 32 ≤ 64 * 32) :=
  ⟨by decide, generate_challenges_in_range (fun l => l.sum + 1000) 64 2 5 3 6 7 (by decide)⟩

/-- Claim C6: `generate_challenges` is deterministic — two calls with
identical randomness, sector id, partition index (and, for the Window
variant, identical sector index) return identical, identically ordered
challenge sequences. -/
theorem generate_challenges_deterministic (hash : List Nat → Nat)
    (numLeaves count r1 r2 s1 s2 k1 k2 idx1 idx2 : Nat)
    (hr : r1 = r2) (hs : s1 = s2) (hk : k1 = k2) (hidx : idx1 = idx2) :
    winning.generate_challenges hash numLeaves count r1 s1 k1
        = winning.generate_challenges hash numLeaves count r2 s2 k2
      ∧ window.generate_challenges hash numLeaves count r1 idx1 s1 k1
        = window.generate_challenges hash numLeaves count r2 idx2 s2 k2 := by
  subst hr hs hk hidx
  exact ⟨rfl, rfl⟩

theorem generate_challenges_deterministic_witness :
    winning.generate_challenges (fun l => l.sum) 64 2 5 6 7
        = winning.generate_challenges (fun l => l.sum) 64 2 5 6 7
      ∧ window.generate_challenges (fun l => l.sum) 64 2 5 3 6 7
        = window.generate_challenges (fun l => l.sum) 64 2 5 3 6 7 :=
  generate_challenges_deterministic (fun l => l.sum) 64 2 5 5 6 6 7 7 3 3
    rfl rfl rfl rfl


theorem insertAt_siblingsAt (a : Nat) (ha : 0 < a) (f : Nat → F) (c : Nat) :
    insertAt (c % a) (f c) (siblingsAt a f c)
      = (List.range a).map (fun j => f (a * (c / a) + j)) := by
  have hmod : c % a < a := Nat.mod_lt _ ha
  have hsplit : List.range a
      = List.range (c % a) ++ (List.range (a - c % a)).map (fun x => c % a + x) := by
    rw [← List.range_add]
    congr 1
    omega
  obtain ⟨s, hs⟩ : ∃ s, a - c % a = s + 1 := ⟨a - c % a - 1, by omega⟩
  have hfilter : (List.range a).filter (fun j => j ≠ c % a)
      = List.range (c % a) ++ (List.range s).map (fun x => c % a + (x + 1)) := by
    rw [hsplit, List.filter_append]
    congr 1
    · rw [List.filter_eq_self]
      intro j hj
      rw [List.mem_range] at hj
      simp only [decide_eq_true_eq]
      omega
    · rw [hs, List.range_succ_eq_map, List.map_cons, List.filter_cons, List.map_map]
      simp only [Nat.add_zero, decide_eq_true_eq]
      rw [if_neg (by simp)]
      rw [List.filter_eq_self.2 (fun j hj => by
        rw [List.mem_map] at hj
        obtain ⟨x, _, rfl⟩ := hj
        simp only [Function.comp_apply, decide_eq_true_eq]
        omega)]
      apply List.map_congr_left
      intro x _
      simp only [Function.comp_apply]
  rw [siblingsAt, hfilter, List.map_append, insertAt,
    List.take_left' (by rw [List.length_map, List.length_range]),
    List.drop_left' (by rw [List.length_map, List.length_range]),
    hsplit, List.map_append]
  congr 1
  rw [hs, List.range_succ_eq_map, List.map_cons, List.map_cons]
  congr 1
  · rw [Nat.add_zero]
    exact congrArg f (Nat.div_add_mod c a).symm
  · simp only [List.map_map]
    apply List.map_congr_left
    intro x _
    simp only [Function.comp_apply]

theorem verifyPath_gen_proof (hashMany : List F → F) (arities : List Nat)
    (hpos : ∀ a ∈ arities, 0 < a) (f : Nat → F) (c : Nat) (hc : c < arities.prod) :
    verifyPath hashMany (gen_proof hashMany arities f c) (f c)
      = rootOf hashMany arities f := by
  induction arities generalizing f c with
  | nil =>
    have hc0 : c = 0 := by
      rw [List.prod_nil] at hc
      omega
    subst hc0
    rfl
  | cons a arities ih =>
    have ha : 0 < a := hpos a (List.mem_cons_self a arities)
    rw [gen_proof, verifyPath, List.foldl_cons,
      insertAt_siblingsAt a ha f c]
    have hstep : hashMany ((List.range a).map (fun j => f (a * (c / a) + j)))
        = buildLevel hashMany a f (c / a) := rfl
    rw [hstep]
    have hdiv : c / a < arities.prod := by
      rw [Nat.div_lt_iff_lt_mul ha, Nat.mul_comm]
      rw [List.prod_cons] at hc
      exact hc
    exact ih (fun b hb => hpos b (List.mem_cons_of_mem a hb)) (buildLevel hashMany a f)
      (c / a) hdiv

/-- Claim C5: any public `comm_r` accepted by the circuit equals the
domain-separated two-input hash of `comm_c` and `root_r`, and a Winning or
Window circuit built from an honest witness — real leaves, real
authentication paths, and `comm_r` computed as that hash — is satisfied. -/
theorem honest_post_circuits_satisfied {F : Type} (hash2 : F → F → F)
    (hashMany : List F → F) (arities : List Nat) (hpos : ∀ a ∈ arities, 0 < a)
    (f : Nat → F) (comm_c : F) (challenges : List Nat)
    (hch : ∀ c ∈ challenges, c < arities.prod)
    (sectors : List ((Nat → F) × F × List Nat))
    (hsec : ∀ s ∈ sectors, ∀ c ∈ s.2.2, c < arities.prod) :
    (∀ (comm_r root_r : F) (ws : List (F × List (List F × Nat))),
        winningSatisfied hash2 hashMany comm_r comm_c root_r ws →
          comm_r = hash2 comm_c root_r)
      ∧ winningSatisfied hash2 hashMany
          (hash2 comm_c (rootOf hashMany arities f)) comm_c (rootOf hashMany arities f)
          (challenges.map (fun c => (f c, gen_proof hashMany arities f c)))
      ∧ windowSatisfied hash2 hashMany
          (sectors.map (fun s =>
            (hash2 s.2.1 (rootOf hashMany arities s.1), s.2.1,
              rootOf hashMany arities s.1,
              s.2.2.map (fun c => (s.1 c, gen_proof hashMany arities s.1 c))))) := by
  refine ⟨fun comm_r root_r ws h => h.1, ⟨rfl, ?_⟩, ?_⟩
  · intro w hw
    rw [List.mem_map] at hw
    obtain ⟨c, hcmem, rfl⟩ := hw
    exact verifyPath_gen_proof hashMany arities hpos f c (hch c hcmem)
  · intro s hs
    rw [List.mem_map] at hs
    obtain ⟨s0, hs0, rfl⟩ := hs
    refine ⟨rfl, ?_⟩
    intro w hw
    rw [List.mem_map] at hw
    obtain ⟨c, hcmem, rfl⟩ := hw
    exact verifyPath_gen_proof hashMany arities hpos s0.1 c (hsec s0 hs0 c hcmem)

theorem honest_post_circuits_satisfied_witness :
    (∀ (comm_r root_r : Nat) (ws : List (Nat × List (List Nat × Nat))),
        winningSatisfied (fun x y => x + 2 * y + 1) (fun l => l.sum + 1)
          comm_r 5 root_r ws → comm_r = (fun x y => x + 2 * y + 1) 5 root_r)
      ∧ winningSatisfied (fun x y => x + 2 * y + 1) (fun l => l.sum + 1)
          ((fun x y => x + 2 * y + 1) 5
            (rootOf (fun l => l.sum + 1) [2, 2] (fun i => i + 10)))
          5 (rootOf (fun l => l.sum + 1) [2, 2] (fun i => i + 10))
          ([3].map (fun c =>
            ((fun i => i + 10) c, gen_proof (fun l => l.sum + 1) [2, 2] (fun i => i + 10) c)))
      ∧ windowSatisfied (fun x y => x + 2 * y + 1) (fun l => l.sum + 1)
          ([((fun i => i), 7, [1])].map (fun s =>
            ((fun x y => x + 2 * y + 1) s.2.1 (rootOf (fun l => l.sum + 1) [2, 2] s.1),
              s.2.1, rootOf (fun l => l.sum + 1) [2, 2] s.1,
              s.2.2.map (fun c => (s.1 c, gen_proof (fun l => l.sum + 1) [2, 2] s.1 c))))) :=
  honest_post_circuits_satisfied (fun x y => x + 2 * y + 1) (fun l => l.sum + 1)
    [2, 2] (by decide) (fun i => i + 10) 5 [3] (by decide)
    [((fun i => i), 7, [1])] (by
      intro s hs
      rw [List.mem_singleton] at hs
      subst hs
      decide)
